import Mathlib

/-
Verification of the ESP32 bark-detection audio pipeline.

The definitions below are shallow embeddings of the C++ sources:
  * namespace SecureRing   — the audio ring buffer of
    src/components/bark_detector/src/secure_webrtc_dogbark_detector.cpp
    (writeToRingBuffer / readFromRingBuffer / peekRingBuffer /
     getAvailableSamples);
  * namespace WebrtcRing   — the inline ring of audioProcessTask in
    src/components/bark_detector/src/webrtc-firmware.cpp;
  * namespace Detector     — apply_temporal_filter, extract_mel_spectrogram
    and BarkDetector::process of
    src/components/bark_detector/src/bark_detector.cpp;
  * namespace Gate         — Preprocess::noiseGate and
    AudioUtils::softKneeCompress of
    src/components/bark_detector/src/preprocess.cpp;
  * namespace Decision     — the temporal decision state machine
    (spec section 4.5), which has no implementation in the sources.

Machine integers that only get copied (PCM samples) are modelled as Int;
sizes and cursors as Nat with explicit % N where the C code wraps; float
values as rationals, which is exact for every operation the proved claims
depend on (comparison, branch selection, field arithmetic, sorting).
-/

-- ===== DEFINITIONS =====



namespace SecureRing

/-- Mutable globals of the audio ring in secure_webrtc_dogbark_detector.cpp:
the backing array audioRingBuffer together with the cursors
ringBufferWritePos and ringBufferReadPos. -/
structure RingState where
  buf : List Int
  writePos : Nat
  readPos : Nat
deriving DecidableEq

/-- Cursor sanity plus the fixed allocation size of the backing array. -/
def Valid (N : Nat) (st : RingState) : Prop :=
  st.buf.length = N ∧ st.writePos < N ∧ st.readPos < N

instance (N : Nat) (st : RingState) : Decidable (Valid N st) := by
  unfold Valid; infer_instance

/-- One iteration body of the write loop: store the sample at the write
cursor and advance it modulo N.  Only executed when the advanced cursor
would not collide with the read cursor. -/
def pushSample (N : Nat) (st : RingState) (s : Int) : RingState :=
  ⟨st.buf.set st.writePos s, (st.writePos + 1) % N, st.readPos⟩

/-- Write loop of writeToRingBuffer: per sample, if nextPos would hit the
read cursor the loop breaks (buffer full, the remaining samples are
dropped); otherwise the sample is stored and the count incremented. -/
def writeLoop (N : Nat) : List Int → RingState → Nat → RingState × Nat
  | [], st, written => (st, written)
  | s :: rest, st, written =>
    if (st.writePos + 1) % N ≠ st.readPos then
      writeLoop N rest (pushSample N st s) (written + 1)
    else
      (st, written)

/-- writeToRingBuffer on the successful mutex path: returns the updated
ring state and the number of samples actually stored. -/
def writeToRingBuffer (N : Nat) (st : RingState) (samples : List Int) :
    RingState × Nat :=
  writeLoop N samples st 0

/-- readFromRingBuffer on the successful mutex path: drains up to count
samples, stopping early when the read cursor meets the write cursor. -/
def readFromRingBuffer (N : Nat) (st : RingState) : Nat → List Int × RingState
  | 0 => ([], st)
  | count + 1 =>
    if st.readPos ≠ st.writePos then
      let rest := readFromRingBuffer N ⟨st.buf, st.writePos, (st.readPos + 1) % N⟩ count
      (st.buf.getD st.readPos 0 :: rest.1, rest.2)
    else
      ([], st)

/-- Loop of peekRingBuffer: a local cursor pos starts at the read cursor
and walks forward; the ring state itself is never assigned. -/
def peekLoop (N : Nat) (st : RingState) : Nat → Nat → List Int
  | _, 0 => []
  | pos, count + 1 =>
    if pos ≠ st.writePos then
      st.buf.getD pos 0 :: peekLoop N st ((pos + 1) % N) count
    else
      []

/-- peekRingBuffer on the successful mutex path: returns the copied
samples together with the (unmodified) ring state at exit. -/
def peekRingBuffer (N : Nat) (st : RingState) (count : Nat) :
    List Int × RingState :=
  (peekLoop N st st.readPos count, st)

/-- getAvailableSamples as written in the source. -/
def getAvailableSamples (N : Nat) (st : RingState) : Nat :=
  if st.writePos ≥ st.readPos then st.writePos - st.readPos
  else N - st.readPos + st.writePos

/-- Abstraction: the buffered samples in read order. -/
def contents (N : Nat) (st : RingState) : List Int :=
  if st.readPos ≤ st.writePos then
    (st.buf.drop st.readPos).take (st.writePos - st.readPos)
  else
    st.buf.drop st.readPos ++ st.buf.take st.writePos

/-- The ring as allocated and zeroed at startup. -/
def emptyRing (N : Nat) : RingState :=
  ⟨List.replicate N 0, 0, 0⟩

/-- Client operations on the shared ring. -/
inductive RingOp where
  | write (xs : List Int)
  | read (count : Nat)
  | peek (count : Nat)
deriving DecidableEq

/-- One client operation.  A write returns nothing to the consuming stream;
a read drains samples and hands them to the consumer; a peek copies without
draining, so its copy is not part of the consumed stream. -/
def stepOp (N : Nat) (st : RingState) : RingOp → RingState × List Int
  | RingOp.write xs => ((writeToRingBuffer N st xs).1, [])
  | RingOp.read count =>
      ((readFromRingBuffer N st count).2, (readFromRingBuffer N st count).1)
  | RingOp.peek count => ((peekRingBuffer N st count).2, [])

/-- Run a sequence of operations, concatenating everything the destructive
reads delivered. -/
def runOps (N : Nat) (st : RingState) : List RingOp → RingState × List Int
  | [] => (st, [])
  | op :: rest =>
    ((runOps N (stepOp N st op).1 rest).1,
     (stepOp N st op).2 ++ (runOps N (stepOp N st op).1 rest).2)

/-- All samples offered to the producer, in order. -/
def writtenOf : List RingOp → List Int
  | [] => []
  | RingOp.write xs :: rest => xs ++ writtenOf rest
  | RingOp.read _ :: rest => writtenOf rest
  | RingOp.peek _ :: rest => writtenOf rest

/-- Checks that no write ever runs into the full buffer: before every write
the buffered count plus the write size stays within the usable capacity. -/
def fitsAll (N : Nat) (st : RingState) : List RingOp → Bool
  | [] => true
  | RingOp.write xs :: rest =>
    decide (getAvailableSamples N st + xs.length ≤ N - 1) &&
      fitsAll N (stepOp N st (RingOp.write xs)).1 rest
  | RingOp.read count :: rest =>
      fitsAll N (stepOp N st (RingOp.read count)).1 rest
  | RingOp.peek count :: rest =>
      fitsAll N (stepOp N st (RingOp.peek count)).1 rest

end SecureRing

/-- Audio constants of secure_webrtc_dogbark_detector.cpp. -/
def SAMPLES_PER_FRAME : Nat := 320

/-- Number of buffered frames (1.2 seconds of audio). -/
def AUDIO_BUFFER_FRAMES : Nat := 60

/-- Size of the allocated ring array. -/
def AUDIO_BUFFER_SIZE : Nat := SAMPLES_PER_FRAME * AUDIO_BUFFER_FRAMES

namespace WebrtcRing

/-- Mutable state of the inline ring of audioProcessTask in
webrtc-firmware.cpp: ringBuffer, ringWritePos, ringReadPos, ringAvailable
and the audioStats.bufferOverruns counter. -/
structure WState where
  buf : List Int
  writePos : Nat
  readPos : Nat
  available : Nat
  overruns : Nat
deriving DecidableEq

/-- Per-sample body of the capture loop: store the sample at the write
cursor and advance the cursor; if the buffer was full, advance the read
cursor as well (overwriting the oldest buffered sample) and count an
overrun, otherwise grow the available count. -/
def pushSample (R : Nat) (st : WState) (s : Int) : WState :=
  let buf := st.buf.set st.writePos s
  let w := (st.writePos + 1) % R
  if st.available < R then
    ⟨buf, w, st.readPos, st.available + 1, st.overruns⟩
  else
    ⟨buf, w, (st.readPos + 1) % R, st.available, st.overruns + 1⟩

/-- The capture loop pushes every sample of the captured chunk. -/
def pushSamples (R : Nat) (st : WState) (xs : List Int) : WState :=
  xs.foldl (pushSample R) st

end WebrtcRing

namespace Detector

/-- Constants of bark_detector.cpp. -/
def SAMPLE_RATE : Nat := 16000

/-- FFT size used by the feature extractor. -/
def FFT_SIZE : Nat := 512

/-- Hop length between successive analysis frames. -/
def HOP_LENGTH : Nat := 256

/-- Fields of BarkDetectorConfig consulted by apply_temporal_filter. -/
structure TFConfig where
  enable_temporal_filter : Bool
  ema_alpha : ℚ
  median_filter_size : Nat
deriving DecidableEq

/-- Temporal-filter state inside BarkDetector::Impl: the per-class EMA
array ema_confidence, the flat median history buffer median_buffer, its
slot index median_buffer_idx and the stats.total_inferences counter
(incremented by run_inference only after the filter has run). -/
structure TFState where
  ema_confidence : List ℚ
  median_buffer : List ℚ
  median_buffer_idx : Nat
  total_inferences : Nat
deriving DecidableEq

/-- EMA pass of apply_temporal_filter: per class i the stored EMA becomes
alpha·conf[i] + (1 − alpha)·ema[i] and the confidence is replaced by it. -/
def emaStep (cfg : TFConfig) (st : TFState) (confidences : List ℚ) :
    List ℚ :=
  (List.range confidences.length).map (fun i =>
    cfg.ema_alpha * confidences.getD i 0
      + (1 - cfg.ema_alpha) * st.ema_confidence.getD i 0)

/-- Median-history push of apply_temporal_filter: the filtered vector is
written into the flat buffer at slots idx·num_classes + i. -/
def pushHistory (buf : List ℚ) (idx : Nat) (conf : List ℚ) : List ℚ :=
  (List.range conf.length).foldl
    (fun b i => b.set (idx * conf.length + i) (conf.getD i 0)) buf

/-- Number of history entries consulted by the median pass, exactly as the
source computes it: min(median_filter_size, stats.total_inferences). -/
def medianCount (cfg : TFConfig) (st : TFState) : Nat :=
  min cfg.median_filter_size st.total_inferences

/-- The local values array filled for class i: entries
median_buffer[j·num_classes + i] for j < count. -/
def columnVals (buf : List ℚ) (numClasses i count : Nat) : List ℚ :=
  (List.range count).map (fun j => buf.getD (j * numClasses + i) 0)

/-- Sort the copied values and pick slot count / 2, as the source does with
std::sort followed by values[count / 2].  Sorting by ≤ gives the same list
std::sort produces.  A pick outside the written portion (possible when
count = 0, see the C10 analysis) is modelled with the default 0. -/
def medianPick (vals : List ℚ) : ℚ :=
  (vals.insertionSort (· ≤ ·)).getD (vals.length / 2) 0

/-- apply_temporal_filter: nothing when disabled; otherwise the EMA pass,
then (when median_filter_size > 1) the push into the history ring followed
by the per-class median replacement.  Returns the updated filter state and
the filtered confidence vector. -/
def apply_temporal_filter (cfg : TFConfig) (st : TFState)
    (confidences : List ℚ) : TFState × List ℚ :=
  if cfg.enable_temporal_filter = false then (st, confidences)
  else
    let conf1 := emaStep cfg st confidences
    if 1 < cfg.median_filter_size then
      let buf1 := pushHistory st.median_buffer st.median_buffer_idx conf1
      let st2 : TFState :=
        ⟨conf1, buf1, (st.median_buffer_idx + 1) % cfg.median_filter_size,
         st.total_inferences⟩
      let conf2 := (List.range confidences.length).map (fun i =>
        medianPick (columnVals buf1 confidences.length i
          (medianCount cfg st2)))
      (st2, conf2)
    else
      (⟨conf1, st.median_buffer, st.median_buffer_idx,
        st.total_inferences⟩, conf1)

/-- Audio classes of the copilot API header used by bark_detector.cpp. -/
inductive BarkClass where
  | DOG_BARK
  | SPEECH
  | AMBIENT
  | SILENCE
  | UNKNOWN
deriving DecidableEq

/-- DetectionResult of the copilot API header.  timestamp_ms is modelled
as an Option because the early-error path of BarkDetector::process returns
it unset. -/
structure DetectionResult where
  detected_class : BarkClass
  confidence : ℚ
  timestamp_ms : Option Nat
  is_bark : Bool
deriving DecidableEq

/-- BarkDetector::process.  The inference body run_inference (TFLite
invocation plus filtering and statistics updates) is a state transformer
taken as a parameter; on a sample-rate mismatch it is never invoked and an
error result is returned with the detector state untouched. -/
def process (run_inference : TFState → List Int → TFState × DetectionResult)
    (millisNow : Nat) (st : TFState) (audio_samples : List Int)
    (sample_rate : Nat) : TFState × DetectionResult :=
  if sample_rate ≠ SAMPLE_RATE then
    (st, ⟨BarkClass.UNKNOWN, 0, none, false⟩)
  else
    let r := run_inference st audio_samples
    (r.1, ⟨r.2.detected_class, r.2.confidence, some millisNow, r.2.is_bark⟩)

/-- The sample-copy loop of extract_mel_spectrogram for one frame: fft_size
samples starting at start_idx scaled by 1/32768, zero-padded past the end
of the available input. -/
def frameInput (audio_samples : List Int) (start_idx : Nat) : List ℚ :=
  (List.range FFT_SIZE).map (fun i =>
    if start_idx + i < audio_samples.length then
      ((audio_samples.getD (start_idx + i) 0 : Int) : ℚ) / 32768
    else 0)

/-- extract_mel_spectrogram.  The per-frame DSP chain (Hamming window, FFT,
power spectrum, mel filterbank) is abstracted as melFrame, a function from
the frame's scaled samples to its mel energy vector; the initialization
guard, the insufficient-samples guard, the frame loop with its hop/zero
padding and the output writes follow the source.  Returns the success flag
together with the output feature buffer. -/
def extract_mel_spectrogram (melFrame : List ℚ → List ℚ)
    (initialized : Bool) (time_frames mel_bands : Nat)
    (audio_samples : List Int) (output_features : List ℚ) :
    Bool × List ℚ :=
  if initialized = false then (false, output_features)
  else if audio_samples.length
      < (time_frames - 1) * HOP_LENGTH + FFT_SIZE then
    (false, output_features)
  else
    (true,
     (List.range time_frames).foldl
       (fun out frame =>
         let energies := melFrame (frameInput audio_samples
           (frame * HOP_LENGTH))
         (List.range mel_bands).foldl
           (fun o i => o.set (frame * mel_bands + i) (energies.getD i 0))
           out)
       output_features)

end Detector

namespace Gate

/-- Default knee width of AudioUtils::softKneeCompress (preprocess.h). -/
def KNEE_WIDTH_DEFAULT : ℚ := 1/10

/-- AudioUtils::softKneeCompress: identity below the knee, full ratio
compression above it, squared-ramp interpolated knee ratio inside. -/
def softKneeCompress (input threshold knee_ratio_cfg knee_width : ℚ) : ℚ :=
  if input ≤ threshold - knee_width / 2 then input
  else if threshold + knee_width / 2 ≤ input then
    threshold + (input - threshold) / knee_ratio_cfg
  else
    threshold + (input - threshold)
      / (1 + (knee_ratio_cfg - 1)
          * ((input - threshold + knee_width / 2) / knee_width) ^ 2)

/-- Fields of PreprocessConfig read by Preprocess::noiseGate. -/
structure GateConfig where
  noise_gate_threshold : ℚ
  noise_gate_ratio : ℚ
deriving DecidableEq

/-- Per-sample body of Preprocess::noiseGate: when the absolute level is
under the threshold, the sample is scaled by compressed_level / level
(0 when the level is not above 0.0001) and the activation counter is
incremented; otherwise it passes untouched.  Returns the new sample and
counter. -/
def noiseGateSample (cfg : GateConfig) (gate_activations : Nat) (s : ℚ) :
    ℚ × Nat :=
  let level := |s|
  if level < cfg.noise_gate_threshold then
    let compressed_level := softKneeCompress level cfg.noise_gate_threshold
      cfg.noise_gate_ratio KNEE_WIDTH_DEFAULT
    let gain := if 1/10000 < level then compressed_level / level else 0
    (s * gain, gate_activations + 1)
  else
    (s, gate_activations)

/-- Preprocess::noiseGate over a whole buffer, threading the
stats_.noise_gate_activations counter. -/
def noiseGate (cfg : GateConfig) : List ℚ → Nat → List ℚ × Nat
  | [], gate_activations => ([], gate_activations)
  | s :: rest, gate_activations =>
    let p := noiseGateSample cfg gate_activations s
    let q := noiseGate cfg rest p.2
    (p.1 :: q.1, q.2)

end Gate

namespace Decision

/-- Modelled from the spec: tuning record of the decision machine.  The
sources only declare these fields (bark_threshold, min_duration_ms,
debounce_ms in bark_detector_api.h); the machine that consumes them has no
implementation under src/. -/
structure DConfig where
  bark_threshold : ℚ
  min_duration_ms : Nat
  debounce_ms : Nat
deriving DecidableEq

/-- Modelled from the spec: the states of section 4.5 — Idle,
CandidateActive with the time the candidate started, Confirmed after the
single emission — each non-idle state also tracking since when the
confidence has been continuously below threshold. -/
inductive DState where
  | Idle
  | CandidateActive (start_ms : Nat) (belowSince : Option Nat)
  | Confirmed (belowSince : Option Nat)
deriving DecidableEq

/-- Modelled from the spec: the event payload emitted on confirmation. -/
structure BarkEventM where
  confidence : ℚ
  start_ms : Nat
  duration_ms : Nat
deriving DecidableEq

/-- Modelled from the spec: one classification cycle at time t with the
target class's filtered confidence c.  Idle arms a candidate on a
threshold crossing; CandidateActive confirms (emitting the single event)
once the elapsed time reaches the minimum duration; a state returns to
Idle only after the confidence has stayed below threshold for longer than
the debounce interval; Confirmed never emits. -/
def step (cfg : DConfig) (st : DState) (t : Nat) (c : ℚ) :
    DState × Option BarkEventM :=
  match st with
  | DState.Idle =>
    if cfg.bark_threshold ≤ c then
      (DState.CandidateActive t none, none)
    else (DState.Idle, none)
  | DState.CandidateActive start below =>
    if cfg.bark_threshold ≤ c then
      if cfg.min_duration_ms ≤ t - start then
        (DState.Confirmed none, some ⟨c, start, t - start⟩)
      else (DState.CandidateActive start none, none)
    else
      match below with
      | none => (DState.CandidateActive start (some t), none)
      | some b =>
        if cfg.debounce_ms < t - b then (DState.Idle, none)
        else (DState.CandidateActive start (some b), none)
  | DState.Confirmed below =>
    if cfg.bark_threshold ≤ c then (DState.Confirmed none, none)
    else
      match below with
      | none => (DState.Confirmed (some t), none)
      | some b =>
        if cfg.debounce_ms < t - b then (DState.Idle, none)
        else (DState.Confirmed (some b), none)

/-- Modelled from the spec: run the machine over timestamped confidence
cycles, collecting the emitted events in order. -/
def runCycles (cfg : DConfig) (st : DState) :
    List (Nat × ℚ) → DState × List BarkEventM
  | [] => (st, [])
  | (t, c) :: rest =>
    ((runCycles cfg (step cfg st t c).1 rest).1,
     (step cfg st t c).2.toList
       ++ (runCycles cfg (step cfg st t c).1 rest).2)

end Decision

-- ===== THEOREMS =====

namespace ListFacts

/-- Dropping after a set at a later index: the set lands inside the suffix. -/
theorem drop_set_of_le {α : Type} (a : α) :
    ∀ (l : List α) (i j : Nat), j ≤ i →
      (l.set i a).drop j = (l.drop j).set (i - j) a
  | [], _, _, _ => by simp
  | _ :: _, _, 0, _ => by simp
  | x :: xs, i + 1, j + 1, h => by
    have ih := drop_set_of_le a xs i j (Nat.le_of_succ_le_succ h)
    simpa [List.set, List.drop, Nat.succ_sub_succ] using ih

/-- Dropping strictly past a set leaves the suffix untouched. -/
theorem drop_set_of_lt {α : Type} (a : α) :
    ∀ (l : List α) (i j : Nat), i < j →
      (l.set i a).drop j = l.drop j
  | [], _, _, _ => by simp
  | x :: xs, 0, j + 1, _ => by simp [List.set, List.drop]
  | x :: xs, i + 1, j + 1, h => by
    have ih := drop_set_of_lt a xs i j (Nat.lt_of_succ_lt_succ h)
    simpa [List.set, List.drop] using ih

/-- Taking no further than a set leaves the prefix untouched. -/
theorem take_set_of_le {α : Type} (a : α) :
    ∀ (l : List α) (i j : Nat), j ≤ i →
      (l.set i a).take j = l.take j
  | [], _, _, _ => by simp
  | _ :: _, _, 0, _ => by simp
  | x :: xs, i + 1, j + 1, h => by
    have ih := take_set_of_le a xs i j (Nat.le_of_succ_le_succ h)
    simpa [List.set, List.take] using ih

/-- Reading back the element just set. -/
theorem getD_set_self {α : Type} (d a : α) :
    ∀ (l : List α) (i : Nat), i < l.length → (l.set i a).getD i d = a
  | _ :: _, 0, _ => rfl
  | x :: xs, i + 1, h => by
    have ih := getD_set_self d a xs i (by simpa using h)
    simpa [List.set, List.getD] using ih

/-- A take of one more element appends the element at the boundary. -/
theorem take_succ_getD {α : Type} (d : α) :
    ∀ (l : List α) (i : Nat), i < l.length →
      l.take (i + 1) = l.take i ++ [l.getD i d]
  | x :: xs, 0, _ => by simp [List.getD]
  | x :: xs, i + 1, h => by
    have ih := take_succ_getD d xs i (by simpa using h)
    simp [List.take, List.getD, ih]

/-- Setting the final element of a list replaces it. -/
theorem set_last_eq_take_append {α : Type} (a : α) :
    ∀ (l : List α) (k : Nat), l.length = k + 1 → l.set k a = l.take k ++ [a]
  | x :: xs, 0, h => by
    have hx : xs = [] := by simpa using h
    subst hx; rfl
  | x :: xs, k + 1, h => by
    have ih := set_last_eq_take_append a xs k (by simpa using h)
    simp [List.set, List.take, ih]

/-- Peeling the head of a drop at an in-range index. -/
theorem drop_eq_getD_cons {α : Type} (d : α) :
    ∀ (l : List α) (i : Nat), i < l.length →
      l.drop i = l.getD i d :: l.drop (i + 1)
  | _ :: _, 0, _ => rfl
  | x :: xs, i + 1, h => by
    have ih := drop_eq_getD_cons d xs i (by simpa using h)
    simpa [List.drop, List.getD] using ih

end ListFacts

namespace SecureRing

theorem valid_emptyRing {N : Nat} (hN : 0 < N) : Valid N (emptyRing N) := by
  refine ⟨by simp [emptyRing], by simpa [emptyRing] using hN,
    by simpa [emptyRing] using hN⟩

theorem contents_emptyRing (N : Nat) : contents N (emptyRing N) = [] := by
  simp [contents, emptyRing]

theorem length_contents {N : Nat} {st : RingState} (h : Valid N st) :
    (contents N st).length = getAvailableSamples N st := by
  obtain ⟨hlen, hw, hr⟩ := h
  unfold contents getAvailableSamples
  by_cases hrw : st.readPos ≤ st.writePos
  · simp only [if_pos hrw, if_pos hrw]
    rw [List.length_take, List.length_drop, hlen]
    exact min_eq_left (Nat.sub_le_sub_right (Nat.le_of_lt hw) _)
  · have hlt : st.writePos < st.readPos := Nat.lt_of_not_le hrw
    simp only [if_neg hrw, if_neg (by omega : ¬ st.writePos ≥ st.readPos)]
    rw [List.length_append, List.length_drop, List.length_take, hlen]
    omega

theorem avail_le {N : Nat} {st : RingState} (h : Valid N st) :
    getAvailableSamples N st ≤ N - 1 := by
  obtain ⟨_, hw, hr⟩ := h
  unfold getAvailableSamples
  by_cases hrw : st.writePos ≥ st.readPos
  · simp only [if_pos hrw]; omega
  · simp only [if_neg hrw]; omega

/-- The write loop's fullness test corresponds exactly to the ring holding
N − 1 samples: one slot always stays unused. -/
theorem full_iff {N : Nat} {st : RingState} (h : Valid N st) :
    (st.writePos + 1) % N = st.readPos ↔ getAvailableSamples N st = N - 1 := by
  obtain ⟨hlen, hw, hr⟩ := h
  unfold getAvailableSamples
  by_cases hrw : st.writePos ≥ st.readPos
  · simp only [if_pos hrw]
    by_cases hwN : st.writePos + 1 = N
    · rw [hwN, Nat.mod_self]; omega
    · rw [Nat.mod_eq_of_lt (by omega)]; omega
  · have hlt : st.writePos < st.readPos := Nat.lt_of_not_le hrw
    simp only [if_neg hrw]
    rw [Nat.mod_eq_of_lt (by omega)]
    omega

theorem valid_pushSample {N : Nat} {st : RingState} (h : Valid N st) (s : Int) :
    Valid N (pushSample N st s) := by
  obtain ⟨hlen, hw, hr⟩ := h
  exact ⟨by simp [pushSample, hlen], Nat.mod_lt _ (by omega),
    by simpa [pushSample] using hr⟩

theorem contents_pushSample {N : Nat} {st : RingState} {s : Int}
    (h : Valid N st) (hroom : (st.writePos + 1) % N ≠ st.readPos) :
    contents N (pushSample N st s) = contents N st ++ [s] := by
  obtain ⟨hlen, hw, hr⟩ := h
  by_cases hrw : st.readPos ≤ st.writePos
  · by_cases hwN : st.writePos + 1 = N
    · have hwz : (st.writePos + 1) % N = 0 := by rw [hwN, Nat.mod_self]
      have hrpos : 0 < st.readPos := by
        rcases Nat.eq_zero_or_pos st.readPos with h0 | h0
        · exact absurd (by rw [hwz, h0]) hroom
        · exact h0
      have hweq : st.writePos = N - 1 := by omega
      unfold contents pushSample
      simp only [hwz, if_pos hrw, List.take_zero, List.append_nil]
      rw [if_neg (by omega : ¬ st.readPos ≤ 0)]
      rw [hweq, ListFacts.drop_set_of_le s st.buf (N - 1) st.readPos
        (by omega)]
      rw [ListFacts.set_last_eq_take_append s (st.buf.drop st.readPos)
        (N - 1 - st.readPos) (by rw [List.length_drop, hlen]; omega)]
    · have hmod : (st.writePos + 1) % N = st.writePos + 1 :=
        Nat.mod_eq_of_lt (by omega)
      unfold contents pushSample
      simp only [hmod, if_pos hrw]
      rw [if_pos (by omega : st.readPos ≤ st.writePos + 1)]
      rw [ListFacts.drop_set_of_le s st.buf st.writePos st.readPos hrw]
      have hk : st.writePos + 1 - st.readPos
          = (st.writePos - st.readPos) + 1 := by omega
      rw [hk]
      have hklen : st.writePos - st.readPos
          < ((st.buf.drop st.readPos).set (st.writePos - st.readPos) s).length := by
        rw [List.length_set, List.length_drop, hlen]; omega
      rw [ListFacts.take_succ_getD 0 _ _ hklen]
      rw [ListFacts.take_set_of_le s _ _ _ (Nat.le_refl _)]
      rw [ListFacts.getD_set_self 0 s _ _
        (by rw [List.length_drop, hlen]; omega)]
  · have hlt : st.writePos < st.readPos := Nat.lt_of_not_le hrw
    have hmod : (st.writePos + 1) % N = st.writePos + 1 :=
      Nat.mod_eq_of_lt (by omega)
    have hlt' : st.writePos + 1 < st.readPos := by
      rcases Nat.lt_or_ge (st.writePos + 1) st.readPos with h | h
      · exact h
      · exact absurd (by omega : (st.writePos + 1) % N = st.readPos) hroom
    unfold contents pushSample
    simp only [hmod, if_neg hrw]
    rw [if_neg (by omega : ¬ st.readPos ≤ st.writePos + 1)]
    rw [ListFacts.drop_set_of_lt s st.buf st.writePos st.readPos hlt]
    have hwlen : st.writePos < (st.buf.set st.writePos s).length := by
      rw [List.length_set, hlen]; omega
    rw [ListFacts.take_succ_getD 0 _ _ hwlen]
    rw [ListFacts.take_set_of_le s _ _ _ (Nat.le_refl _)]
    rw [ListFacts.getD_set_self 0 s _ _ (by rw [hlen]; omega)]
    rw [List.append_assoc]

theorem avail_pushSample {N : Nat} {st : RingState} {s : Int}
    (h : Valid N st) (hroom : (st.writePos + 1) % N ≠ st.readPos) :
    getAvailableSamples N (pushSample N st s)
      = getAvailableSamples N st + 1 := by
  have h1 := length_contents (valid_pushSample h s)
  rw [contents_pushSample h hroom, List.length_append,
    length_contents h] at h1
  simpa using h1.symm

theorem writeLoop_spec {N : Nat} :
    ∀ (xs : List Int) (st : RingState) (written : Nat), Valid N st →
      Valid N (writeLoop N xs st written).1 ∧
      contents N (writeLoop N xs st written).1
        = contents N st ++ xs.take ((writeLoop N xs st written).2 - written) ∧
      (writeLoop N xs st written).2
        = written + min xs.length (N - 1 - getAvailableSamples N st)
  | [], st, written, h => by
    refine ⟨h, by simp [writeLoop], by simp [writeLoop]⟩
  | s :: rest, st, written, h => by
    by_cases hroom : (st.writePos + 1) % N ≠ st.readPos
    · have hfull := full_iff h
      have hlt : getAvailableSamples N st < N - 1 := by
        rcases Nat.lt_or_ge (getAvailableSamples N st) (N - 1) with hc | hc
        · exact hc
        · exact absurd (hfull.mpr (Nat.le_antisymm (avail_le h) hc)) hroom
      have hih := writeLoop_spec rest (pushSample N st s) (written + 1)
        (valid_pushSample h s)
      obtain ⟨hV, hC, hW⟩ := hih
      have hstep : writeLoop N (s :: rest) st written
          = writeLoop N rest (pushSample N st s) (written + 1) := by
        simp [writeLoop, hroom]
      rw [avail_pushSample h hroom] at hW
      refine ⟨by rw [hstep]; exact hV, ?_, ?_⟩
      · rw [hstep, hC, contents_pushSample h hroom]
        rw [List.append_assoc]
        congr 1
        have hge : (writeLoop N rest (pushSample N st s) (written + 1)).2
            ≥ written + 1 := by omega
        have hsub : (writeLoop N rest (pushSample N st s) (written + 1)).2
            - written
            = ((writeLoop N rest (pushSample N st s) (written + 1)).2
              - (written + 1)) + 1 := by omega
        rw [hsub, List.take_succ_cons, List.singleton_append]
      · rw [hstep, hW]
        simp only [List.length_cons]
        omega
    · have hstep : writeLoop N (s :: rest) st written = (st, written) := by
        simp [writeLoop, hroom]
      have hav : getAvailableSamples N st = N - 1 :=
        (full_iff h).mp (by simpa using hroom)
      refine ⟨by rw [hstep]; exact h, ?_, ?_⟩
      · rw [hstep]; simp
      · rw [hstep, hav]
        simp

theorem write_spec {N : Nat} {st : RingState} (xs : List Int)
    (h : Valid N st) :
    Valid N (writeToRingBuffer N st xs).1 ∧
    contents N (writeToRingBuffer N st xs).1
      = contents N st ++ xs.take (writeToRingBuffer N st xs).2 ∧
    (writeToRingBuffer N st xs).2
      = min xs.length (N - 1 - getAvailableSamples N st) := by
  have h1 := writeLoop_spec (N := N) xs st 0 h
  simpa [writeToRingBuffer] using h1

theorem contents_eq_nil {N : Nat} {st : RingState}
    (heq : st.readPos = st.writePos) : contents N st = [] := by
  simp [contents, heq]

theorem contents_advance {N : Nat} {st : RingState} (h : Valid N st)
    (hne : st.readPos ≠ st.writePos) :
    contents N st
      = st.buf.getD st.readPos 0
        :: contents N ⟨st.buf, st.writePos, (st.readPos + 1) % N⟩ ∧
    Valid N (⟨st.buf, st.writePos, (st.readPos + 1) % N⟩ : RingState) := by
  obtain ⟨hlen, hw, hr⟩ := h
  have hNpos : 0 < N := by omega
  refine ⟨?_, ⟨hlen, hw, Nat.mod_lt _ hNpos⟩⟩
  by_cases hrw : st.readPos ≤ st.writePos
  · have hlt : st.readPos < st.writePos := Nat.lt_of_le_of_ne hrw hne
    have hmod : (st.readPos + 1) % N = st.readPos + 1 :=
      Nat.mod_eq_of_lt (by omega)
    unfold contents
    simp only [hmod, if_pos hrw, if_pos (by omega : st.readPos + 1 ≤ st.writePos)]
    rw [ListFacts.drop_eq_getD_cons 0 st.buf st.readPos (by omega)]
    have hk : st.writePos - st.readPos
        = (st.writePos - (st.readPos + 1)) + 1 := by omega
    rw [hk, List.take_succ_cons]
  · have hlt : st.writePos < st.readPos := Nat.lt_of_not_le hrw
    by_cases hrN : st.readPos + 1 = N
    · have hmod : (st.readPos + 1) % N = 0 := by rw [hrN, Nat.mod_self]
      unfold contents
      simp only [hmod, if_neg hrw, if_pos (Nat.zero_le _)]
      rw [ListFacts.drop_eq_getD_cons 0 st.buf st.readPos (by omega)]
      rw [show st.readPos + 1 = st.buf.length by omega, List.drop_length]
      simp
    · have hmod : (st.readPos + 1) % N = st.readPos + 1 :=
        Nat.mod_eq_of_lt (by omega)
      unfold contents
      simp only [hmod, if_neg hrw,
        if_neg (by omega : ¬ st.readPos + 1 ≤ st.writePos)]
      rw [ListFacts.drop_eq_getD_cons 0 st.buf st.readPos (by omega)]
      simp

theorem read_spec {N : Nat} :
    ∀ (count : Nat) (st : RingState), Valid N st →
      (readFromRingBuffer N st count).1 = (contents N st).take count ∧
      Valid N (readFromRingBuffer N st count).2 ∧
      contents N (readFromRingBuffer N st count).2
        = (contents N st).drop count ∧
      (readFromRingBuffer N st count).2.buf = st.buf ∧
      (readFromRingBuffer N st count).2.writePos = st.writePos
  | 0, st, h => by
    refine ⟨by simp [readFromRingBuffer], h, by simp [readFromRingBuffer],
      rfl, rfl⟩
  | count + 1, st, h => by
    by_cases hne : st.readPos ≠ st.writePos
    · obtain ⟨hcons, hV⟩ := contents_advance h hne
      have hih := read_spec count ⟨st.buf, st.writePos, (st.readPos + 1) % N⟩ hV
      obtain ⟨h1, h2, h3, h4, h5⟩ := hih
      have hstep : readFromRingBuffer N st (count + 1)
          = (st.buf.getD st.readPos 0
              :: (readFromRingBuffer N
                ⟨st.buf, st.writePos, (st.readPos + 1) % N⟩ count).1,
             (readFromRingBuffer N
                ⟨st.buf, st.writePos, (st.readPos + 1) % N⟩ count).2) := by
        simp [readFromRingBuffer, hne]
      rw [hstep]
      refine ⟨?_, h2, ?_, h4, h5⟩
      · rw [hcons, List.take_succ_cons, h1]
      · rw [hcons, List.drop_succ_cons, h3]
    · have heq : st.readPos = st.writePos := by omega
      have hstep : readFromRingBuffer N st (count + 1) = ([], st) := by
        simp [readFromRingBuffer, hne]
      rw [hstep, contents_eq_nil heq]
      exact ⟨by simp, h, by simp, rfl, rfl⟩

theorem peekLoop_eq_read (N : Nat) :
    ∀ (count : Nat) (st : RingState) (pos : Nat),
      peekLoop N st pos count
        = (readFromRingBuffer N ⟨st.buf, st.writePos, pos⟩ count).1
  | 0, _, _ => rfl
  | count + 1, st, pos => by
    by_cases hne : pos ≠ st.writePos
    · have hih := peekLoop_eq_read N count st ((pos + 1) % N)
      simp only [peekLoop, readFromRingBuffer, if_pos hne, hih]
    · simp [peekLoop, readFromRingBuffer, hne]

end SecureRing

namespace SecureRing

theorem valid_stepOp {N : Nat} {st : RingState} (h : Valid N st)
    (op : RingOp) : Valid N (stepOp N st op).1 := by
  cases op with
  | write xs => exact (write_spec xs h).1
  | read count => exact (read_spec count st h).2.1
  | peek count => simpa [stepOp, peekRingBuffer] using h

theorem valid_runOps {N : Nat} :
    ∀ (ops : List RingOp) (st : RingState), Valid N st →
      Valid N (runOps N st ops).1
  | [], _, h => h
  | op :: rest, st, h => by
    have hih := valid_runOps rest (stepOp N st op).1 (valid_stepOp h op)
    simpa [runOps] using hih

theorem write_full {N : Nat} {st : RingState} (xs : List Int)
    (h : Valid N st) (hfull : getAvailableSamples N st = N - 1) :
    writeToRingBuffer N st xs = (st, 0) := by
  have hcol : (st.writePos + 1) % N = st.readPos := (full_iff h).mpr hfull
  cases xs with
  | nil => rfl
  | cons s rest => simp [writeToRingBuffer, writeLoop, hcol]

theorem runOps_fifo {N : Nat} :
    ∀ (ops : List RingOp) (st : RingState), Valid N st →
      fitsAll N st ops = true →
      (runOps N st ops).2 ++ contents N (runOps N st ops).1
        = contents N st ++ writtenOf ops
  | [], st, _, _ => by simp [runOps, writtenOf]
  | RingOp.write xs :: rest, st, h, hfit => by
    rw [fitsAll, Bool.and_eq_true, decide_eq_true_eq] at hfit
    obtain ⟨hle, hfit2⟩ := hfit
    obtain ⟨hV, hC, hW⟩ := write_spec (N := N) xs h
    have hall : (writeToRingBuffer N st xs).2 = xs.length := by omega
    have hC2 : contents N (writeToRingBuffer N st xs).1
        = contents N st ++ xs := by
      rw [hC, hall, List.take_length]
    have hih := runOps_fifo rest (writeToRingBuffer N st xs).1 hV
      (by simpa [stepOp] using hfit2)
    simp only [runOps, stepOp, List.nil_append, writtenOf]
    rw [hih, hC2, List.append_assoc]
  | RingOp.read count :: rest, st, h, hfit => by
    rw [fitsAll] at hfit
    obtain ⟨h1, h2, h3, _, _⟩ := read_spec (N := N) count st h
    have hih := runOps_fifo rest (readFromRingBuffer N st count).2 h2
      (by simpa [stepOp] using hfit)
    simp only [runOps, stepOp, writtenOf]
    rw [List.append_assoc, hih, h3, h1, ← List.append_assoc,
      List.take_append_drop]
  | RingOp.peek count :: rest, st, h, hfit => by
    rw [fitsAll] at hfit
    have hih := runOps_fifo rest st h
      (by simpa [stepOp, peekRingBuffer] using hfit)
    simpa [runOps, stepOp, peekRingBuffer, writtenOf] using hih

end SecureRing

/-- C1: starting from the empty ring, for every sequence of ring operations
in which the buffered sample count never runs into the capacity (every
write fits completely), the destructive reads deliver exactly the written
samples in write order with no loss and no duplication: the concatenated
read outputs followed by the samples still buffered equal the concatenated
written samples.  In particular a writeToRingBuffer of xs followed by a
readFromRingBuffer of xs.length returns exactly xs. -/
theorem c1_ring_fifo (N : Nat) (ops : List SecureRing.RingOp) (hN : 0 < N)
    (hfit : SecureRing.fitsAll N (SecureRing.emptyRing N) ops = true) :
    (SecureRing.runOps N (SecureRing.emptyRing N) ops).2
        ++ SecureRing.contents N
            (SecureRing.runOps N (SecureRing.emptyRing N) ops).1
      = SecureRing.writtenOf ops
    ∧ ∀ xs : List Int, xs.length ≤ N - 1 →
        (SecureRing.runOps N (SecureRing.emptyRing N)
            [SecureRing.RingOp.write xs, SecureRing.RingOp.read xs.length]).2
          = xs := by
  constructor
  · have h := SecureRing.runOps_fifo ops (SecureRing.emptyRing N)
      (SecureRing.valid_emptyRing hN) hfit
    rwa [SecureRing.contents_emptyRing, List.nil_append] at h
  · intro xs hxs
    obtain ⟨hV, hC, hW⟩ :=
      SecureRing.write_spec xs (SecureRing.valid_emptyRing hN)
    have havail : SecureRing.getAvailableSamples N (SecureRing.emptyRing N)
        = 0 := by
      simp [SecureRing.getAvailableSamples, SecureRing.emptyRing]
    have hall :
        (SecureRing.writeToRingBuffer N (SecureRing.emptyRing N) xs).2
          = xs.length := by
      rw [hW, havail]; omega
    have hC2 : SecureRing.contents N
        (SecureRing.writeToRingBuffer N (SecureRing.emptyRing N) xs).1
          = xs := by
      rw [hC, hall, List.take_length, SecureRing.contents_emptyRing,
        List.nil_append]
    obtain ⟨hr1, _, _, _, _⟩ := SecureRing.read_spec xs.length
      (SecureRing.writeToRingBuffer N (SecureRing.emptyRing N) xs).1 hV
    simp only [SecureRing.runOps, SecureRing.stepOp, List.nil_append,
      List.append_nil]
    rw [hr1, hC2, List.take_length]

/-- Closed instance of the C1 theorem: capacity 4, a write of two samples
followed by a read of two, hypotheses discharged by computation. -/
theorem c1_ring_fifo_witness :
    0 < 4
    ∧ SecureRing.fitsAll 4 (SecureRing.emptyRing 4)
        [SecureRing.RingOp.write [10, 20], SecureRing.RingOp.read 2] = true
    ∧ ((SecureRing.runOps 4 (SecureRing.emptyRing 4)
          [SecureRing.RingOp.write [10, 20], SecureRing.RingOp.read 2]).2
          ++ SecureRing.contents 4
              (SecureRing.runOps 4 (SecureRing.emptyRing 4)
                [SecureRing.RingOp.write [10, 20],
                 SecureRing.RingOp.read 2]).1
        = SecureRing.writtenOf
            [SecureRing.RingOp.write [10, 20], SecureRing.RingOp.read 2]
      ∧ ∀ xs : List Int, xs.length ≤ 4 - 1 →
          (SecureRing.runOps 4 (SecureRing.emptyRing 4)
              [SecureRing.RingOp.write xs, SecureRing.RingOp.read xs.length]).2
            = xs) :=
  ⟨by decide, by decide,
    c1_ring_fifo 4
      [SecureRing.RingOp.write [10, 20], SecureRing.RingOp.read 2]
      (by decide) (by decide)⟩

/-- C7: peekRingBuffer leaves the ring state — write cursor, read cursor
and every buffered sample — unchanged, and the samples it copied are
exactly what a subsequent destructive readFromRingBuffer returns. -/
theorem c7_peek_nondestructive (N : Nat) (st : SecureRing.RingState)
    (count : Nat) :
    (SecureRing.peekRingBuffer N st count).2 = st
    ∧ (SecureRing.peekRingBuffer N st count).1
        = (SecureRing.readFromRingBuffer N
            (SecureRing.peekRingBuffer N st count).2 count).1 := by
  refine ⟨rfl, ?_⟩
  obtain ⟨buf, w, r⟩ := st
  simpa [SecureRing.peekRingBuffer] using
    SecureRing.peekLoop_eq_read N count ⟨buf, w, r⟩ r

/-- C8: over every operation sequence from the empty ring, the buffered
count reported by getAvailableSamples never exceeds AUDIO_BUFFER_SIZE − 1
(one slot always stays unused), and a single write into the empty ring
stores min(n, AUDIO_BUFFER_SIZE − 1) samples even when more are offered. -/
theorem c8_one_slot_unused (ops : List SecureRing.RingOp) :
    SecureRing.getAvailableSamples AUDIO_BUFFER_SIZE
        (SecureRing.runOps AUDIO_BUFFER_SIZE
          (SecureRing.emptyRing AUDIO_BUFFER_SIZE) ops).1
      ≤ AUDIO_BUFFER_SIZE - 1
    ∧ ∀ xs : List Int,
        (SecureRing.writeToRingBuffer AUDIO_BUFFER_SIZE
            (SecureRing.emptyRing AUDIO_BUFFER_SIZE) xs).2
          = min xs.length (AUDIO_BUFFER_SIZE - 1) := by
  have hN : 0 < AUDIO_BUFFER_SIZE := by
    norm_num [AUDIO_BUFFER_SIZE, SAMPLES_PER_FRAME, AUDIO_BUFFER_FRAMES]
  constructor
  · exact SecureRing.avail_le
      (SecureRing.valid_runOps ops _ (SecureRing.valid_emptyRing hN))
  · intro xs
    obtain ⟨_, _, hW⟩ :=
      SecureRing.write_spec xs (SecureRing.valid_emptyRing hN)
    rw [hW]
    have hz : SecureRing.getAvailableSamples AUDIO_BUFFER_SIZE
        (SecureRing.emptyRing AUDIO_BUFFER_SIZE) = 0 := by
      simp [SecureRing.getAvailableSamples, SecureRing.emptyRing]
    rw [hz, Nat.sub_zero]

/-- Counterexample to C3 as stated: in the only write path of the sources
that increments an overrun counter — the capture loop of
webrtc-firmware.cpp — a write to the full ring does not drop the newest
(incoming) sample and does not preserve the buffered data: pushing 5 into
the full ring [1, 2, 3, 4] stores 5 over the oldest buffered sample and
advances the read cursor, while incrementing the overrun counter. -/
theorem c3_counterexample :
    (WebrtcRing.pushSamples 4 ⟨[1, 2, 3, 4], 0, 0, 4, 0⟩ [5]).overruns = 1
    ∧ (WebrtcRing.pushSamples 4 ⟨[1, 2, 3, 4], 0, 0, 4, 0⟩ [5]).buf
        = [5, 2, 3, 4]
    ∧ (WebrtcRing.pushSamples 4 ⟨[1, 2, 3, 4], 0, 0, 4, 0⟩ [5]).readPos = 1
    ∧ ¬ (WebrtcRing.pushSamples 4 ⟨[1, 2, 3, 4], 0, 0, 4, 0⟩ [5]).buf
          = [1, 2, 3, 4] := by
  decide

/-- C3 amended: writeToRingBuffer on a full ring drops all incoming samples
without blocking, returns 0 as the stored count and leaves the entire ring
state (cursors and every buffered sample) unchanged — but it maintains no
overrun counter; the overrun counter belongs to the webrtc-firmware capture
loop, whose full-buffer policy is the opposite: it stores the incoming
sample over the oldest buffered one, advances the read cursor and
increments bufferOverruns. -/
theorem c3_amended_full_write_policy (N : Nat) (st : SecureRing.RingState)
    (xs : List Int) (h : SecureRing.Valid N st)
    (hfull : SecureRing.getAvailableSamples N st = N - 1) :
    SecureRing.writeToRingBuffer N st xs = (st, 0)
    ∧ ∀ (R : Nat) (w : WebrtcRing.WState) (s : Int), ¬ w.available < R →
        WebrtcRing.pushSample R w s
          = ⟨w.buf.set w.writePos s, (w.writePos + 1) % R,
             (w.readPos + 1) % R, w.available, w.overruns + 1⟩ := by
  refine ⟨SecureRing.write_full xs h hfull, ?_⟩
  intro R w s hnf
  simp [WebrtcRing.pushSample, hnf]

/-- Closed instance of the amended C3 theorem at a concrete full ring of
capacity 4, hypotheses discharged by computation. -/
theorem c3_amended_full_write_policy_witness :
    SecureRing.Valid 4 ⟨[1, 2, 3, 4], 3, 0⟩
    ∧ SecureRing.getAvailableSamples 4 ⟨[1, 2, 3, 4], 3, 0⟩ = 4 - 1
    ∧ (SecureRing.writeToRingBuffer 4 ⟨[1, 2, 3, 4], 3, 0⟩ [7]
          = (⟨[1, 2, 3, 4], 3, 0⟩, 0)
      ∧ ∀ (R : Nat) (w : WebrtcRing.WState) (s : Int), ¬ w.available < R →
          WebrtcRing.pushSample R w s
            = ⟨w.buf.set w.writePos s, (w.writePos + 1) % R,
               (w.readPos + 1) % R, w.available, w.overruns + 1⟩) :=
  ⟨by decide, by decide,
    c3_amended_full_write_policy 4 ⟨[1, 2, 3, 4], 3, 0⟩ [7]
      (by decide) (by decide)⟩

namespace ListFacts

/-- Reading a map over a range inside bounds. -/
theorem getD_map_range {β : Type} (f : Nat → β) (d : β) (n i : Nat)
    (h : i < n) : ((List.range n).map f).getD i d = f i := by
  rw [List.getD_eq_getElem?_getD]
  simp [List.getElem?_map, List.getElem?_range, h]

end ListFacts

namespace Detector

/-- With the filter enabled and a median window above 1, the output vector
of apply_temporal_filter is the per-class median of the history columns
after the EMA push, over min(median_filter_size, total_inferences)
entries. -/
theorem apply_temporal_filter_median (cfg : TFConfig) (st : TFState)
    (confidences : List ℚ)
    (hen : cfg.enable_temporal_filter = true)
    (hsz : 1 < cfg.median_filter_size) :
    (apply_temporal_filter cfg st confidences).2
      = (List.range confidences.length).map (fun i =>
          medianPick (columnVals
            (pushHistory st.median_buffer st.median_buffer_idx
              (emaStep cfg st confidences))
            confidences.length i
            (min cfg.median_filter_size st.total_inferences))) := by
  simp [apply_temporal_filter, hen, hsz, medianCount]

end Detector

/-- C4: with the temporal filter enabled, a median window of 5 and at
least five inferences already counted, if the five history entries of
class i after the EMA push are 0.1, 0.9, 0.2, 0.8, 0.3 then
apply_temporal_filter outputs 0.3 for class i — the middle element of the
sorted window. -/
theorem c4_median_of_window (cfg : Detector.TFConfig)
    (st : Detector.TFState) (confidences : List ℚ) (i : Nat)
    (hen : cfg.enable_temporal_filter = true)
    (hsz : cfg.median_filter_size = 5)
    (hinf : 5 ≤ st.total_inferences)
    (hi : i < confidences.length)
    (hcol : Detector.columnVals
        (Detector.pushHistory st.median_buffer st.median_buffer_idx
          (Detector.emaStep cfg st confidences))
        confidences.length i 5
      = [1/10, 9/10, 2/10, 8/10, 3/10]) :
    (Detector.apply_temporal_filter cfg st confidences).2.getD i 0
      = 3/10 := by
  rw [Detector.apply_temporal_filter_median cfg st confidences hen
    (by omega)]
  rw [ListFacts.getD_map_range _ _ _ _ hi]
  rw [show min cfg.median_filter_size st.total_inferences = 5 by omega]
  rw [hcol]
  norm_num [Detector.medianPick, List.insertionSort, List.orderedInsert,
    List.getD]

/-- Closed instance of the C4 theorem: one class, alpha = 1, history slots
0.1, 0.9, 0.2, 0.8 with the push landing 0.3 in slot 4. -/
theorem c4_median_of_window_witness :
    (Detector.apply_temporal_filter ⟨true, 1, 5⟩
        ⟨[0], [1/10, 9/10, 2/10, 8/10, 0], 4, 7⟩ [3/10]).2.getD 0 0
      = 3/10 :=
  c4_median_of_window ⟨true, 1, 5⟩ ⟨[0], [1/10, 9/10, 2/10, 8/10, 0], 4, 7⟩
    [3/10] 0 rfl rfl (by norm_num) (by norm_num)
    (by
      norm_num [Detector.columnVals, Detector.pushHistory,
        Detector.emaStep, List.getD, List.range_succ, List.foldl])

/-- C10 fails on the very first classification cycle: run_inference
increments stats.total_inferences only after apply_temporal_filter has
run, so the first invocation computes count = min(size, 0) = 0, copies no
entry into the local values array, and the selection index count / 2 = 0
is not within the written portion — values[0] is read uninitialized.  In
this model the out-of-range pick surfaces as medianPick [] for every
class. -/
theorem c10_first_cycle_reads_unwritten (cfg : Detector.TFConfig)
    (st : Detector.TFState)
    (hen : cfg.enable_temporal_filter = true)
    (hsz : 1 < cfg.median_filter_size)
    (hfirst : st.total_inferences = 0) :
    Detector.medianCount cfg st = 0
    ∧ (∀ (buf : List ℚ) (numClasses i : Nat),
        Detector.columnVals buf numClasses i (Detector.medianCount cfg st)
          = [])
    ∧ ¬ Detector.medianCount cfg st / 2 < Detector.medianCount cfg st
    ∧ ∀ confidences : List ℚ,
        (Detector.apply_temporal_filter cfg st confidences).2
          = List.replicate confidences.length (Detector.medianPick []) := by
  have h0 : Detector.medianCount cfg st = 0 := by
    simp [Detector.medianCount, hfirst]
  refine ⟨h0, fun buf nc i => by simp [Detector.columnVals, h0],
    by simp [h0], fun confidences => ?_⟩
  rw [Detector.apply_temporal_filter_median cfg st confidences hen hsz]
  rw [show min cfg.median_filter_size st.total_inferences = 0 by omega]
  simp [Detector.columnVals, List.map_const', List.length_range]

/-- Closed instance of the C10 theorem at the zeroed initial statistics. -/
theorem c10_first_cycle_reads_unwritten_witness :
    (⟨true, 1, 5⟩ : Detector.TFConfig).enable_temporal_filter = true
    ∧ 1 < (⟨true, 1, 5⟩ : Detector.TFConfig).median_filter_size
    ∧ (⟨[], [], 0, 0⟩ : Detector.TFState).total_inferences = 0
    ∧ (Detector.medianCount ⟨true, 1, 5⟩ ⟨[], [], 0, 0⟩ = 0
      ∧ (∀ (buf : List ℚ) (numClasses i : Nat),
          Detector.columnVals buf numClasses i
              (Detector.medianCount ⟨true, 1, 5⟩ ⟨[], [], 0, 0⟩)
            = [])
      ∧ ¬ Detector.medianCount ⟨true, 1, 5⟩ ⟨[], [], 0, 0⟩ / 2
          < Detector.medianCount ⟨true, 1, 5⟩ ⟨[], [], 0, 0⟩
      ∧ ∀ confidences : List ℚ,
          (Detector.apply_temporal_filter ⟨true, 1, 5⟩ ⟨[], [], 0, 0⟩
              confidences).2
            = List.replicate confidences.length (Detector.medianPick [])) :=
  ⟨rfl, by decide, rfl,
    c10_first_cycle_reads_unwritten ⟨true, 1, 5⟩ ⟨[], [], 0, 0⟩ rfl
      (by decide) rfl⟩

/-- C9: a call to BarkDetector::process with a sample rate different from
16000 returns UNKNOWN with confidence 0 and is_bark false, never invokes
the inference body, and leaves the detector state (EMA values, median
history, statistics counters) untouched. -/
theorem c9_sample_rate_guard
    (run_inference :
      Detector.TFState → List Int → Detector.TFState × Detector.DetectionResult)
    (millisNow : Nat) (st : Detector.TFState) (audio_samples : List Int)
    (sample_rate : Nat) (h : sample_rate ≠ 16000) :
    Detector.process run_inference millisNow st audio_samples sample_rate
      = (st, ⟨Detector.BarkClass.UNKNOWN, 0, none, false⟩) := by
  simp [Detector.process, Detector.SAMPLE_RATE, h]

/-- Closed instance of the C9 theorem at 8000 Hz with an inference body
that would change everything were it invoked. -/
theorem c9_sample_rate_guard_witness :
    (8000 : Nat) ≠ 16000
    ∧ Detector.process
        (fun _ _ => (⟨[1], [1], 1, 1⟩,
          ⟨Detector.BarkClass.DOG_BARK, 1, some 1, true⟩))
        5 ⟨[], [], 0, 0⟩ [] 8000
      = (⟨[], [], 0, 0⟩, ⟨Detector.BarkClass.UNKNOWN, 0, none, false⟩) :=
  ⟨by decide,
    c9_sample_rate_guard
      (fun _ _ => (⟨[1], [1], 1, 1⟩,
        ⟨Detector.BarkClass.DOG_BARK, 1, some 1, true⟩))
      5 ⟨[], [], 0, 0⟩ [] 8000 (by decide)⟩

/-- C6: extract_mel_spectrogram called with fewer samples than
(time_frames − 1)·hop_length + fft_size returns the non-fatal failure and
writes nothing — the output feature buffer comes back exactly as passed,
whatever the per-frame DSP chain would compute. -/
theorem c6_insufficient_samples (melFrame : List ℚ → List ℚ)
    (initialized : Bool) (time_frames mel_bands : Nat)
    (audio_samples : List Int) (output_features : List ℚ)
    (h : audio_samples.length
        < (time_frames - 1) * Detector.HOP_LENGTH + Detector.FFT_SIZE) :
    Detector.extract_mel_spectrogram melFrame initialized time_frames
        mel_bands audio_samples output_features
      = (false, output_features) := by
  unfold Detector.extract_mel_spectrogram
  by_cases hinit : initialized = false
  · simp [hinit]
  · simp [hinit, h]

/-- Closed instance of the C6 theorem: one time frame needs 512 samples,
none are supplied, and the output buffer [5] is returned untouched. -/
theorem c6_insufficient_samples_witness :
    ([] : List Int).length
        < (1 - 1) * Detector.HOP_LENGTH + Detector.FFT_SIZE
    ∧ Detector.extract_mel_spectrogram (fun _ => []) true 1 40 [] [5]
        = (false, [5]) :=
  ⟨by decide,
    c6_insufficient_samples (fun _ => []) true 1 40 [] [5] (by decide)⟩

/-- Counterexample to C5 as stated: with threshold 1/2 and ratio 4 the
sample 1/10 lies below threshold − knee/2, yet the noise gate passes it
unchanged — it is not compressed by the configured ratio under either
reading (threshold + (level − threshold)/ratio = 2/5, or level/ratio =
1/40).  In the code the full-ratio branch of softKneeCompress applies to
levels at or above threshold + knee/2, never to the quiet samples the
gate feeds it. -/
theorem c5_counterexample :
    ((1 : ℚ)/10 < 1/2 - Gate.KNEE_WIDTH_DEFAULT / 2)
    ∧ (Gate.noiseGateSample ⟨1/2, 4⟩ 0 (1/10)).1 = 1/10
    ∧ (Gate.noiseGateSample ⟨1/2, 4⟩ 0 (1/10)).1
        ≠ 1/2 + ((1 : ℚ)/10 - 1/2) / 4
    ∧ (Gate.noiseGateSample ⟨1/2, 4⟩ 0 (1/10)).1 ≠ ((1 : ℚ)/10) / 4 := by
  have habs : |(1 : ℚ)/10| = 1/10 := abs_of_nonneg (by norm_num)
  refine ⟨by norm_num [Gate.KNEE_WIDTH_DEFAULT], ?_, ?_, ?_⟩ <;>
    norm_num [Gate.noiseGateSample, Gate.softKneeCompress,
      Gate.KNEE_WIDTH_DEFAULT, habs]

/-- C5 amended: in Preprocess::noiseGate a sample at or above the
threshold passes unchanged without touching the counter; every sample
whose level falls under the threshold increments the activation counter
by one; among those, a level above 0.0001 but at most threshold − knee/2
passes through softKneeCompress unchanged (gain 1) — it is not compressed
by the ratio; a level at most 0.0001 is zeroed; a level inside the
sub-threshold half of the knee is scaled by the squared-ramp knee gain;
and the full-ratio compression formula of softKneeCompress applies
exactly to inputs at or above threshold + knee/2, which the gate never
supplies. -/
theorem c5_amended_gate_behavior (cfg : Gate.GateConfig) (acts : Nat)
    (s : ℚ) :
    (cfg.noise_gate_threshold ≤ |s| →
        Gate.noiseGateSample cfg acts s = (s, acts))
    ∧ (|s| < cfg.noise_gate_threshold →
        (Gate.noiseGateSample cfg acts s).2 = acts + 1)
    ∧ (1/10000 < |s| →
        |s| ≤ cfg.noise_gate_threshold - Gate.KNEE_WIDTH_DEFAULT / 2 →
        (Gate.noiseGateSample cfg acts s).1 = s)
    ∧ (|s| ≤ 1/10000 → |s| < cfg.noise_gate_threshold →
        (Gate.noiseGateSample cfg acts s).1 = 0)
    ∧ (1/10000 < |s| →
        cfg.noise_gate_threshold - Gate.KNEE_WIDTH_DEFAULT / 2 < |s| →
        |s| < cfg.noise_gate_threshold →
        (Gate.noiseGateSample cfg acts s).1
          = s * (Gate.softKneeCompress |s| cfg.noise_gate_threshold
              cfg.noise_gate_ratio Gate.KNEE_WIDTH_DEFAULT / |s|))
    ∧ ∀ x : ℚ,
        cfg.noise_gate_threshold + Gate.KNEE_WIDTH_DEFAULT / 2 ≤ x →
        Gate.softKneeCompress x cfg.noise_gate_threshold
            cfg.noise_gate_ratio Gate.KNEE_WIDTH_DEFAULT
          = cfg.noise_gate_threshold
            + (x - cfg.noise_gate_threshold) / cfg.noise_gate_ratio := by
  have hknee : (0 : ℚ) < Gate.KNEE_WIDTH_DEFAULT / 2 := by
    norm_num [Gate.KNEE_WIDTH_DEFAULT]
  refine ⟨?_, ?_, ?_, ?_, ?_, ?_⟩
  · intro h
    simp [Gate.noiseGateSample, not_lt.mpr h]
  · intro h
    simp [Gate.noiseGateSample, h]
  · intro h1 h2
    have hlt : |s| < cfg.noise_gate_threshold := by linarith
    have hne : |s| ≠ 0 := ne_of_gt (lt_trans (by norm_num) h1)
    simp only [Gate.noiseGateSample, if_pos hlt, if_pos h1,
      Gate.softKneeCompress, if_pos h2]
    rw [div_self hne, mul_one]
  · intro h1 h2
    simp only [Gate.noiseGateSample, if_pos h2,
      if_neg (not_lt.mpr h1), mul_zero]
  · intro h10 h1 h2
    simp only [Gate.noiseGateSample, if_pos h2, if_pos h10]
  · intro x hx
    have hnot : ¬ x ≤ cfg.noise_gate_threshold - Gate.KNEE_WIDTH_DEFAULT / 2 := by
      linarith
    simp only [Gate.softKneeCompress, if_neg hnot, if_pos hx]

/-- Closed instances of the amended C5 theorem with threshold 1/2 and
ratio 4: a loud sample passes uncounted, quiet samples count and keep
their value below the knee, a micro-level sample is zeroed, a knee-region
sample is scaled by the knee gain, and the ratio formula holds at 1. -/
theorem c5_amended_gate_behavior_witness :
    Gate.noiseGateSample ⟨1/2, 4⟩ 0 (3/5) = (3/5, 0)
    ∧ (Gate.noiseGateSample ⟨1/2, 4⟩ 0 (1/10)).2 = 0 + 1
    ∧ (Gate.noiseGateSample ⟨1/2, 4⟩ 0 (1/10)).1 = 1/10
    ∧ (Gate.noiseGateSample ⟨1/2, 4⟩ 0 0).1 = 0
    ∧ (Gate.noiseGateSample ⟨1/2, 4⟩ 0 (47/100)).1
        = 47/100 * (Gate.softKneeCompress (|(47 : ℚ)/100|) (1/2) 4
            Gate.KNEE_WIDTH_DEFAULT / |(47 : ℚ)/100|)
    ∧ Gate.softKneeCompress 1 (1/2) 4 Gate.KNEE_WIDTH_DEFAULT
        = 1/2 + ((1 : ℚ) - 1/2) / 4 :=
  ⟨(c5_amended_gate_behavior ⟨1/2, 4⟩ 0 (3/5)).1
      (by rw [show |(3 : ℚ)/5| = 3/5 from abs_of_nonneg (by norm_num)]
          norm_num),
   (c5_amended_gate_behavior ⟨1/2, 4⟩ 0 (1/10)).2.1
      (by rw [show |(1 : ℚ)/10| = 1/10 from abs_of_nonneg (by norm_num)]
          norm_num),
   (c5_amended_gate_behavior ⟨1/2, 4⟩ 0 (1/10)).2.2.1
      (by rw [show |(1 : ℚ)/10| = 1/10 from abs_of_nonneg (by norm_num)]
          norm_num)
      (by rw [show |(1 : ℚ)/10| = 1/10 from abs_of_nonneg (by norm_num)]
          norm_num [Gate.KNEE_WIDTH_DEFAULT]),
   (c5_amended_gate_behavior ⟨1/2, 4⟩ 0 0).2.2.2.1
      (by norm_num) (by norm_num),
   (c5_amended_gate_behavior ⟨1/2, 4⟩ 0 (47/100)).2.2.2.2.1
      (by rw [show |(47 : ℚ)/100| = 47/100 from abs_of_nonneg (by norm_num)]
          norm_num)
      (by rw [show |(47 : ℚ)/100| = 47/100 from abs_of_nonneg (by norm_num)]
          norm_num [Gate.KNEE_WIDTH_DEFAULT])
      (by rw [show |(47 : ℚ)/100| = 47/100 from abs_of_nonneg (by norm_num)]
          norm_num),
   (c5_amended_gate_behavior ⟨1/2, 4⟩ 0 0).2.2.2.2.2 1
      (by norm_num [Gate.KNEE_WIDTH_DEFAULT])⟩

namespace Decision

theorem step_confirmed_no_emit (cfg : DConfig) (below : Option Nat)
    (t : Nat) (c : ℚ) :
    (step cfg (DState.Confirmed below) t c).2 = none := by
  rcases below with _ | b
  · by_cases h : cfg.bark_threshold ≤ c <;> simp [step, h]
  · by_cases h : cfg.bark_threshold ≤ c
    · simp [step, h]
    · by_cases h2 : cfg.debounce_ms < t - b <;> simp [step, h, h2]

theorem run_confirmed_qualifying (cfg : DConfig) :
    ∀ (cycles : List (Nat × ℚ)) (below : Option Nat),
      (∀ p ∈ cycles, cfg.bark_threshold ≤ p.2) →
      (runCycles cfg (DState.Confirmed below) cycles).2 = []
      ∧ (runCycles cfg (DState.Confirmed below) cycles).1
          = DState.Confirmed (if cycles.isEmpty then below else none)
  | [], below, _ => ⟨rfl, rfl⟩
  | (t, c) :: rest, below, hall => by
    have hc : cfg.bark_threshold ≤ c := hall (t, c) (List.mem_cons_self _ _)
    have hstep : step cfg (DState.Confirmed below) t c
        = (DState.Confirmed none, none) := by
      simp [step, hc]
    obtain ⟨h1, h2⟩ := run_confirmed_qualifying cfg rest none
      (fun p hp => hall p (List.mem_cons_of_mem _ hp))
    rw [ite_self] at h2
    exact ⟨by simp [runCycles, hstep, h1],
      by simp [runCycles, hstep, h2]⟩

theorem run_confirmed_gap (cfg : DConfig) :
    ∀ (cycles : List (Nat × ℚ)) (g : Nat),
      (∀ p ∈ cycles, p.2 < cfg.bark_threshold) →
      (∀ p ∈ cycles, p.1 - g ≤ cfg.debounce_ms) →
      (runCycles cfg (DState.Confirmed (some g)) cycles).2 = []
      ∧ (runCycles cfg (DState.Confirmed (some g)) cycles).1
          = DState.Confirmed (some g)
  | [], _, _, _ => ⟨rfl, rfl⟩
  | (t, c) :: rest, g, hlow, hshort => by
    have hc : c < cfg.bark_threshold := hlow (t, c) (List.mem_cons_self _ _)
    have ht : t - g ≤ cfg.debounce_ms := hshort (t, c) (List.mem_cons_self _ _)
    have hstep : step cfg (DState.Confirmed (some g)) t c
        = (DState.Confirmed (some g), none) := by
      simp [step, not_le.mpr hc, not_lt.mpr ht]
    have hih := run_confirmed_gap cfg rest g
      (fun p hp => hlow p (List.mem_cons_of_mem _ hp))
      (fun p hp => hshort p (List.mem_cons_of_mem _ hp))
    exact ⟨by simp [runCycles, hstep, hih.1],
      by simp [runCycles, hstep, hih.2]⟩

theorem run_candidate_qualifying (cfg : DConfig) :
    ∀ (cycles : List (Nat × ℚ)) (start : Nat) (below : Option Nat),
      (∀ p ∈ cycles, cfg.bark_threshold ≤ p.2) →
      if ∃ p ∈ cycles, cfg.min_duration_ms ≤ p.1 - start then
        (runCycles cfg (DState.CandidateActive start below) cycles).2.length
            = 1
        ∧ (runCycles cfg (DState.CandidateActive start below) cycles).1
            = DState.Confirmed none
      else
        (runCycles cfg (DState.CandidateActive start below) cycles).2 = []
        ∧ ∃ b2, (runCycles cfg (DState.CandidateActive start below) cycles).1
            = DState.CandidateActive start b2
  | [], start, below, _ => by
    rw [if_neg (by simp)]
    exact ⟨rfl, below, rfl⟩
  | (t, c) :: rest, start, below, hall => by
    have hc : cfg.bark_threshold ≤ c := hall (t, c) (List.mem_cons_self _ _)
    have htail : ∀ p ∈ rest, cfg.bark_threshold ≤ p.2 :=
      fun p hp => hall p (List.mem_cons_of_mem _ hp)
    by_cases hconf : cfg.min_duration_ms ≤ t - start
    · have hstep : step cfg (DState.CandidateActive start below) t c
          = (DState.Confirmed none, some ⟨c, start, t - start⟩) := by
        simp [step, hc, hconf]
      obtain ⟨hB1, hB2⟩ := run_confirmed_qualifying cfg rest none htail
      rw [ite_self] at hB2
      rw [if_pos ⟨(t, c), List.mem_cons_self _ _, hconf⟩]
      exact ⟨by simp [runCycles, hstep, hB1],
        by simp [runCycles, hstep, hB2]⟩
    · have hstep : step cfg (DState.CandidateActive start below) t c
          = (DState.CandidateActive start none, none) := by
        simp [step, hc, hconf]
      have hih := run_candidate_qualifying cfg rest start none htail
      by_cases hex : ∃ p ∈ rest, cfg.min_duration_ms ≤ p.1 - start
      · rw [if_pos hex] at hih
        rw [if_pos (by
          obtain ⟨p, hp, hple⟩ := hex
          exact ⟨p, List.mem_cons_of_mem _ hp, hple⟩)]
        exact ⟨by simp [runCycles, hstep, hih.1],
          by simp [runCycles, hstep, hih.2]⟩
      · rw [if_neg hex] at hih
        obtain ⟨h1, b2, h2⟩ := hih
        rw [if_neg (by
          rintro ⟨p, hp, hple⟩
          rcases List.mem_cons.mp hp with heq | hmem
          · exact hconf (by rw [heq] at hple; exact hple)
          · exact hex ⟨p, hmem, hple⟩)]
        exact ⟨by simp [runCycles, hstep, h1],
          b2, by simp [runCycles, hstep, h2]⟩

theorem runCycles_append (cfg : DConfig) :
    ∀ (l1 l2 : List (Nat × ℚ)) (st : DState),
      runCycles cfg st (l1 ++ l2)
        = ((runCycles cfg (runCycles cfg st l1).1 l2).1,
           (runCycles cfg st l1).2
             ++ (runCycles cfg (runCycles cfg st l1).1 l2).2)
  | [], l2, st => by simp [runCycles]
  | (t, c) :: rest, l2, st => by
    simp only [List.cons_append, runCycles, List.append_eq]
    rw [runCycles_append cfg rest l2 (step cfg st t c).1]
    simp [List.append_assoc]

end Decision

/-- C2 (modelled from the spec): no step taken from the Confirmed state
ever emits an event, whatever the target-class confidence does; and for
any two qualifying bursts — the first reaching the minimum duration while
above threshold — separated by a below-threshold gap that never exceeds
the debounce interval, the whole trace emits exactly one event: the
second burst is absorbed into the cooldown. -/
theorem c2_confirmed_absorbs_second_burst (cfg : Decision.DConfig)
    (t0 : Nat) (c0 : ℚ) (rest1 gap burst2 : List (Nat × ℚ))
    (hc0 : cfg.bark_threshold ≤ c0)
    (h1 : ∀ p ∈ rest1, cfg.bark_threshold ≤ p.2)
    (hconf : ∃ p ∈ rest1, cfg.min_duration_ms ≤ p.1 - t0)
    (hgap : ∀ p ∈ gap, p.2 < cfg.bark_threshold)
    (hgapshort : ∀ p ∈ gap, p.1 - (gap.headD (0, 0)).1 ≤ cfg.debounce_ms)
    (h2 : ∀ p ∈ burst2, cfg.bark_threshold ≤ p.2) :
    (∀ (below : Option Nat) (t : Nat) (c : ℚ),
        (Decision.step cfg (Decision.DState.Confirmed below) t c).2 = none)
    ∧ (Decision.runCycles cfg Decision.DState.Idle
          (((t0, c0) :: rest1) ++ gap ++ burst2)).2.length = 1 := by
  refine ⟨fun below t c => Decision.step_confirmed_no_emit cfg below t c, ?_⟩
  have hstep0 : Decision.step cfg Decision.DState.Idle t0 c0
      = (Decision.DState.CandidateActive t0 none, none) := by
    simp [Decision.step, hc0]
  have hA := Decision.run_candidate_qualifying cfg rest1 t0 none h1
  rw [if_pos hconf] at hA
  obtain ⟨hA1, hA2⟩ := hA
  have hgapresult :
      (Decision.runCycles cfg (Decision.DState.Confirmed none) gap).2 = []
      ∧ ∃ bg, (Decision.runCycles cfg (Decision.DState.Confirmed none)
          gap).1 = Decision.DState.Confirmed bg := by
    cases gap with
    | nil => exact ⟨rfl, none, rfl⟩
    | cons p grest =>
      obtain ⟨g0, cg0⟩ := p
      have hcg : cg0 < cfg.bark_threshold :=
        hgap (g0, cg0) (List.mem_cons_self _ _)
      have hstepg : Decision.step cfg (Decision.DState.Confirmed none) g0 cg0
          = (Decision.DState.Confirmed (some g0), none) := by
        simp [Decision.step, not_le.mpr hcg]
      have hC := Decision.run_confirmed_gap cfg grest g0
        (fun q hq => hgap q (List.mem_cons_of_mem _ hq))
        (fun q hq => by
          have hs := hgapshort q (List.mem_cons_of_mem _ hq)
          simpa using hs)
      exact ⟨by simp [Decision.runCycles, hstepg, hC.1],
        some g0, by simp [Decision.runCycles, hstepg, hC.2]⟩
  obtain ⟨hG1, bg, hG2⟩ := hgapresult
  obtain ⟨hB1, -⟩ := Decision.run_confirmed_qualifying cfg burst2 bg h2
  have hsplit : ((t0, c0) :: rest1) ++ gap ++ burst2
      = (t0, c0) :: (rest1 ++ (gap ++ burst2)) := by simp
  rw [hsplit]
  simp only [Decision.runCycles, hstep0]
  rw [Decision.runCycles_append cfg rest1 (gap ++ burst2) _, hA2,
    Decision.runCycles_append cfg gap burst2 _, hG2]
  simp [hA1, hG1, hB1]

/-- Closed instance of the C2 theorem: threshold 1, minimum duration
300 ms, debounce 100 ms; a confirming burst at 0/100/300 ms, a quiet
cycle at 350 ms, and a second qualifying burst at 400/500 ms emit exactly
one event. -/
theorem c2_confirmed_absorbs_second_burst_witness :
    (⟨1, 300, 100⟩ : Decision.DConfig).bark_threshold ≤ (2 : ℚ)
    ∧ (∀ p ∈ [((100 : Nat), (2 : ℚ)), (300, 2)],
        (⟨1, 300, 100⟩ : Decision.DConfig).bark_threshold ≤ p.2)
    ∧ (∃ p ∈ [((100 : Nat), (2 : ℚ)), (300, 2)],
        (⟨1, 300, 100⟩ : Decision.DConfig).min_duration_ms ≤ p.1 - 0)
    ∧ (∀ p ∈ [((350 : Nat), (0 : ℚ))],
        p.2 < (⟨1, 300, 100⟩ : Decision.DConfig).bark_threshold)
    ∧ (∀ p ∈ [((350 : Nat), (0 : ℚ))],
        p.1 - (([((350 : Nat), (0 : ℚ))].headD (0, 0)).1)
          ≤ (⟨1, 300, 100⟩ : Decision.DConfig).debounce_ms)
    ∧ (∀ p ∈ [((400 : Nat), (2 : ℚ)), (500, 2)],
        (⟨1, 300, 100⟩ : Decision.DConfig).bark_threshold ≤ p.2)
    ∧ ((∀ (below : Option Nat) (t : Nat) (c : ℚ),
          (Decision.step ⟨1, 300, 100⟩
            (Decision.DState.Confirmed below) t c).2 = none)
      ∧ (Decision.runCycles ⟨1, 300, 100⟩ Decision.DState.Idle
            ((((0 : Nat), (2 : ℚ)) :: [((100 : Nat), (2 : ℚ)), (300, 2)])
              ++ [((350 : Nat), (0 : ℚ))]
              ++ [((400 : Nat), (2 : ℚ)), (500, 2)])).2.length = 1) :=
  ⟨by decide, by decide, by decide, by decide, by decide, by decide,
    c2_confirmed_absorbs_second_burst ⟨1, 300, 100⟩ 0 2
      [(100, 2), (300, 2)] [(350, 0)] [(400, 2), (500, 2)]
      (by decide) (by decide) (by decide) (by decide) (by decide)
      (by decide)⟩
